import Mathlib

/-!
Verification of the k6r converter (src/main.rs): a tool converting K6
load-test JSON output (handleSummary JSON or JSONL event logs) into
Markdown reports.

Modelling conventions of this shallow embedding:
* Rust `f64` values are modelled as rationals `ℚ`; all arithmetic the
  program performs on them (+, -, *, /, comparisons, floor/ceil casts)
  is exact on the inputs of interest, so rounding is out of scope.
  For the float-safety claim about `percentile` a second, NaN-aware
  model `F64 := Option ℚ` (with `none` playing the role of NaN) is
  used; IEEE infinities and overflow are outside both models.
* `HashMap` values built by the program are modelled as
  insertion-ordered association lists `List (String × _)`; the program
  only ever inserts distinct keys into each such map, and the claims
  under study depend on key lookup and presence, not iteration order.
* External library calls (`serde_json` parsing of a whole document or
  of one JSONL line, and `str::parse::<f64>`) are passed in as
  parameters of type `String → Option _`: the claims under
  verification are about the program's own control flow around them.
* Rust `sort_by` (a stable sort by a comparator `c`) is modelled as
  `List.mergeSort` with `le a b := c a b ≠ .gt`.
-/

/-- Metric kinds, from `enum MetricType` in src/main.rs. -/
inductive MetricType where
  | counter
  | rate
  | gauge
  | trend
deriving DecidableEq, Repr

/-- `fn percentile(sorted: &[f64], p: f64) -> f64` from src/main.rs,
with `f64` modelled as `ℚ`.  The Rust `index.floor() as usize` cast
saturates negative values at 0, which `Int.toNat` reproduces; slice
indexing `sorted[i]` is modelled as `getD _ 0` (the proofs show the
indices used are in bounds). -/
def percentile (sorted : List ℚ) (p : ℚ) : ℚ :=
  if sorted.isEmpty then 0
  else if sorted.length = 1 then sorted.headD 0
  else
    let index : ℚ := (p / 100) * ((sorted.length - 1 : ℕ) : ℚ)
    let lower : ℕ := (⌊index⌋).toNat
    let upper : ℕ := (⌈index⌉).toNat
    let fraction : ℚ := index - (lower : ℚ)
    if sorted.length ≤ upper then sorted.getD (sorted.length - 1) 0
    else sorted.getD lower 0 + fraction * (sorted.getD upper 0 - sorted.getD lower 0)

/-- The `sort_by(|a, b| a.partial_cmp(b).unwrap_or(Equal))` call in
`calculate_stats`: on finite values `partial_cmp` is the total order
of `ℚ`, so this is a stable ascending sort. -/
def sortSamples (values : List ℚ) : List ℚ :=
  values.mergeSort (fun a b => decide (a ≤ b))

/-- `fn calculate_stats(values: &[f64], metric_type: MetricType)` from
src/main.rs.  The returned `HashMap<String, f64>` is modelled as the
association list of its insertions, in insertion order (all keys
inserted are distinct). -/
def calculate_stats (values : List ℚ) (metric_type : MetricType) :
    List (String × ℚ) :=
  if values.isEmpty then []
  else
    let sorted := sortSamples values
    let sum : ℚ := values.sum
    let count : ℚ := (values.length : ℚ)
    match metric_type with
    | .counter =>
        [("count", count), ("rate", count / max (sum / 1000) 1)]
    | .rate =>
        let passes : ℚ := ((values.filter (fun v => 0 < v)).length : ℚ)
        let fails : ℚ := count - passes
        [("rate", passes / count), ("passes", passes), ("fails", fails)]
    | .gauge =>
        [("value", sorted.getLastD 0), ("min", sorted.headD 0),
         ("max", sorted.getLastD 0)]
    | .trend =>
        [("avg", sum / count), ("min", sorted.headD 0),
         ("max", sorted.getLastD 0), ("med", percentile sorted 50),
         ("p(90)", percentile sorted 90), ("p(95)", percentile sorted 95),
         ("p(99)", percentile sorted 99)]

/-- NaN-aware model of `f64`: `none` plays the role of NaN, `some q` a
finite value.  IEEE infinities and overflow are outside the model. -/
abbrev F64 := Option ℚ

/-- IEEE addition on the NaN-aware model: NaN propagates. -/
def fadd : F64 → F64 → F64
  | some a, some b => some (a + b)
  | _, _ => none

/-- IEEE subtraction on the NaN-aware model: NaN propagates. -/
def fsub : F64 → F64 → F64
  | some a, some b => some (a - b)
  | _, _ => none

/-- IEEE multiplication on the NaN-aware model: NaN propagates. -/
def fmul : F64 → F64 → F64
  | some a, some b => some (a * b)
  | _, _ => none

/-- IEEE division on the NaN-aware model: NaN propagates (division by
zero, which would give an infinity, does not occur: the only divisor
used is the literal `100.0`). -/
def fdiv : F64 → F64 → F64
  | some a, some b => some (a / b)
  | _, _ => none

/-- The Rust `x.floor() as usize` cast: NaN goes to 0 and negative
values saturate at 0 (saturation at `usize::MAX` is irrelevant here as
`ℕ` is unbounded). -/
def floorToUsize : F64 → ℕ
  | none => 0
  | some q => (⌊q⌋).toNat

/-- The Rust `x.ceil() as usize` cast, saturating like `floorToUsize`. -/
def ceilToUsize : F64 → ℕ
  | none => 0
  | some q => (⌈q⌉).toNat

/-- The `index` computed by `percentile`: `(p / 100.0) * (len - 1)`. -/
def percIndex (sorted : List F64) (p : F64) : F64 :=
  fmul (fdiv p (some 100)) (some ((sorted.length - 1 : ℕ) : ℚ))

/-- The `lower` slice index computed by `percentile`. -/
def percLower (sorted : List F64) (p : F64) : ℕ :=
  floorToUsize (percIndex sorted p)

/-- The `upper` slice index computed by `percentile`. -/
def percUpper (sorted : List F64) (p : F64) : ℕ :=
  ceilToUsize (percIndex sorted p)

/-- `fn percentile` again, this time in the NaN-aware float model, for
the safety claim about arbitrary `f64` percentile arguments.  Slice
indexing is `getD _ none`; the safety theorem shows the indices used
are in bounds. -/
def percentileF (sorted : List F64) (p : F64) : F64 :=
  if sorted.isEmpty then some 0
  else if sorted.length = 1 then sorted.headD (some 0)
  else
    let fraction := fsub (percIndex sorted p) (some ((percLower sorted p : ℕ) : ℚ))
    if sorted.length ≤ percUpper sorted p then
      sorted.getD (sorted.length - 1) none
    else
      fadd (sorted.getD (percLower sorted p) none)
        (fmul fraction
          (fsub (sorted.getD (percUpper sorted p) none)
            (sorted.getD (percLower sorted p) none)))

/-- JSON values, standing for `serde_json::Value`.  Objects keep their
fields as an association list. -/
inductive Json where
  | null
  | bool (b : Bool)
  | num (q : ℚ)
  | str (s : String)
  | arr (elems : List Json)
  | obj (fields : List (String × Json))

/-- `serde_json::Value::get(key)`: a field lookup on objects, `None` on
every other value. -/
def Json.getKey : Json → String → Option Json
  | .obj fields, key => fields.lookup key
  | _, _ => none

/-- `enum FileFormat` from src/main.rs. -/
inductive FileFormat where
  | HandleSummary
  | Jsonl
deriving DecidableEq, Repr

/-- `fn detect_format(content: &str) -> FileFormat` from src/main.rs.
`parseJson` stands for `serde_json::from_str::<serde_json::Value>`
(returning `none` on any parse error). -/
def detect_format (parseJson : String → Option Json) (content : String) :
    FileFormat :=
  let trimmed := content.trim
  if trimmed.startsWith "\x7b" then
    match parseJson trimmed with
    | some value =>
        if (value.getKey "metrics").isSome then FileFormat.HandleSummary
        else FileFormat.Jsonl
    | none => FileFormat.Jsonl
  else FileFormat.Jsonl

/-- `struct Threshold` from src/main.rs. -/
structure Threshold where
  ok : Bool
deriving DecidableEq, Repr

/-- `struct Metric` from src/main.rs (`values` and `thresholds` are
`HashMap`s, modelled as association lists). -/
structure Metric where
  metric_type : MetricType
  contains : String
  values : List (String × ℚ)
  thresholds : List (String × Threshold)
deriving DecidableEq, Repr

/-- `struct Check` from src/main.rs. -/
structure Check where
  name : String
  passes : ℕ
  fails : ℕ
deriving DecidableEq, Repr

/-- `struct Group` from src/main.rs: a tree of groups with check
leaves (named `K6Group` here only because Lean already has `Group`). -/
inductive K6Group where
  | mk (name : String) (groups : List K6Group) (checks : List Check)

/-- `struct State` from src/main.rs. -/
structure State where
  test_run_duration_ms : ℚ
deriving DecidableEq, Repr

/-- `struct K6Summary` from src/main.rs (`metrics` is a `HashMap`,
modelled as an association list). -/
structure K6Summary where
  metrics : List (String × Metric)
  root_group : Option K6Group
  state : Option State

/-- `struct JsonlData` from src/main.rs: the `data` object of one JSONL
record.  `tags` keeps field keys and values; only the keys are ever
inspected. -/
structure JsonlData where
  metric_type : Option String
  contains : Option String
  thresholds : List String
  time : Option String
  value : Option ℚ
  tags : Option (List (String × Json))

/-- `struct JsonlLine` from src/main.rs: one parsed JSONL record. -/
structure JsonlLine where
  line_type : String
  metric : String
  data : JsonlData

/-- `struct MetricCollector` from src/main.rs: the per-metric
accumulator of `parse_jsonl`. -/
structure MetricCollector where
  metric_type : MetricType
  contains : String
  values : List ℚ
  thresholds : List String
deriving DecidableEq, Repr

/-- The mutable state of `parse_jsonl`'s line loop: the collectors map
and the first/last `time` strings seen. -/
structure ParseState where
  collectors : List (String × MetricCollector)
  first_time : Option String
  last_time : Option String
deriving DecidableEq, Repr

/-- The loop state before the first line: empty collectors, no times. -/
def initState : ParseState :=
  { collectors := [], first_time := none, last_time := none }

/-- The `match entry.data.metric_type.as_deref()` in `parse_jsonl`:
unrecognized or absent kinds default to Trend. -/
def parseMetricType : Option String → MetricType
  | some "counter" => MetricType.counter
  | some "rate" => MetricType.rate
  | some "gauge" => MetricType.gauge
  | some "trend" => MetricType.trend
  | _ => MetricType.trend

/-- `HashMap::entry(k).or_insert(c)` with the result discarded: insert
only when the key is absent. -/
def insertIfAbsent :
    List (String × MetricCollector) → String → MetricCollector →
      List (String × MetricCollector)
  | [], k, c => [(k, c)]
  | (k0, c0) :: rest, k, c =>
      if k0 == k then (k0, c0) :: rest
      else (k0, c0) :: insertIfAbsent rest k c

/-- `entry(k).or_insert(default Trend collector).values.push(v)`: push
onto the existing collector, or insert the default one holding `[v]`. -/
def pushValue :
    List (String × MetricCollector) → String → ℚ →
      List (String × MetricCollector)
  | [], k, v =>
      [(k, { metric_type := MetricType.trend, contains := "",
             values := [v], thresholds := [] })]
  | (k0, c0) :: rest, k, v =>
      if k0 == k then (k0, { c0 with values := c0.values ++ [v] }) :: rest
      else (k0, c0) :: pushValue rest k v

/-- The time-range tracking of `parse_jsonl`: on a point with a `time`,
set `first_time` when it is still unset and always set `last_time`. -/
def trackTime (s : ParseState) (time : Option String) : ParseState :=
  match time with
  | some t =>
      { s with
        first_time := if s.first_time.isNone then some t else s.first_time
        last_time := some t }
  | none => s

/-- The sub-metric skip condition of `parse_jsonl`: the point carries a
non-empty tag map with at least one key other than `"group"`. -/
def isSubMetricPoint (tags : Option (List (String × Json))) : Bool :=
  match tags with
  | some tgs =>
      !tgs.isEmpty &&
        !(((tgs.map Prod.fst).filter (fun k => k != "group")).isEmpty)
  | none => false

/-- One iteration of `parse_jsonl`'s loop body on an already-parsed
record: the `match entry.line_type.as_str()` dispatch.  Note that for a
Point with a value the time range is tracked before the sub-metric skip
check. -/
def step (s : ParseState) (entry : JsonlLine) : ParseState :=
  if entry.line_type = "Metric" then
    { s with
      collectors := insertIfAbsent s.collectors entry.metric
        { metric_type := parseMetricType entry.data.metric_type
          contains := entry.data.contains.getD ""
          values := []
          thresholds := entry.data.thresholds } }
  else if entry.line_type = "Point" then
    match entry.data.value with
    | some v =>
        let s1 := trackTime s entry.data.time
        if isSubMetricPoint entry.data.tags then s1
        else { s1 with collectors := pushValue s1.collectors entry.metric v }
    | none => s
  else s

/-- One line of `parse_jsonl`'s loop: trim, skip the blank line, parse
(`parseLine` stands for `serde_json::from_str::<JsonlLine>`, `none` on
any error), skip the unparseable line, and otherwise run `step`. -/
def processLine (parseLine : String → Option JsonlLine) (s : ParseState)
    (line : String) : ParseState :=
  let t := line.trim
  if t.isEmpty then s
  else
    match parseLine t with
    | some entry => step s entry
    | none => s

/-- `parse_jsonl`'s whole line loop over a list of lines. -/
def foldLines (parseLine : String → Option JsonlLine)
    (lines : List String) : ParseState :=
  lines.foldl (processLine parseLine) initState

/-- The time-of-day substring extracted by `calculate_duration`'s
`parse_time` closure: the part after `T`, cut before the first `+`,
then cut before the first `-`. -/
def time_part (s : String) : String :=
  (((((s.splitOn "T").getD 1 "").splitOn "+").headD "").splitOn "-").headD ""

/-- The `hh:mm:ss.frac` components: `time_part` split on `:`. -/
def time_components (s : String) : List String :=
  (time_part s).splitOn ":"

/-- The `parse_time` closure of `fn calculate_duration` in src/main.rs:
require exactly two `T`-parts and exactly three `:`-components, parse
each component as a float (`pn` stands for `str::parse::<f64>`), and
convert to milliseconds.  The `h:m:s` triple conversion is split out
as `parse_hms`. -/
def parse_hms (pn : String → Option ℚ) (tc : List String) : Option ℚ :=
  if tc.length ≠ 3 then none
  else
    match pn (tc.getD 0 ""), pn (tc.getD 1 ""), pn (tc.getD 2 "") with
    | some hours, some minutes, some seconds =>
        some ((hours * 3600 + minutes * 60 + seconds) * 1000)
    | _, _, _ => none

def parse_time (pn : String → Option ℚ) (s : String) : Option ℚ :=
  if (s.splitOn "T").length ≠ 2 then none
  else parse_hms pn (time_components s)

/-- `fn calculate_duration(first, last) -> Option<f64>` from
src/main.rs: absolute difference of the two parsed timestamps, `none`
when either is absent or malformed. -/
def calculate_duration (pn : String → Option ℚ)
    (first last : Option String) : Option ℚ :=
  match first, last with
  | some f, some l =>
      match parse_time pn f, parse_time pn l with
      | some first_ms, some last_ms => some |last_ms - first_ms|
      | _, _ => none
  | _, _ => none

/-- The tail of `parse_jsonl`: turn every collector into a `Metric` via
`calculate_stats`, render each declared threshold string as an
`ok = true` placeholder, no group, and a `State` exactly when
`calculate_duration` yields a duration. -/
def buildSummary (pn : String → Option ℚ) (fs : ParseState) : K6Summary :=
  { metrics := fs.collectors.map (fun kc =>
      (kc.1,
       { metric_type := kc.2.metric_type
         contains := kc.2.contains
         values := calculate_stats kc.2.values kc.2.metric_type
         thresholds := kc.2.thresholds.map (fun t => (t, ⟨true⟩)) }))
    root_group := none
    state := (calculate_duration pn fs.first_time fs.last_time).map
      (fun ms => ⟨ms⟩) }

/-- `fn parse_jsonl(content: &str) -> K6Summary` from src/main.rs,
parameterized by the two external parsers. -/
def parse_jsonl (parseLine : String → Option JsonlLine)
    (pn : String → Option ℚ) (content : String) : K6Summary :=
  buildSummary pn (foldLines parseLine (content.splitOn "\n"))

/-- The comparator of `generate_thresholds_section`'s `sort_by` on
`(metric_name, threshold_expr, ok)` triples: by `ok` (false before
true) when they differ, else by metric name. -/
def threshold_cmp (a b : String × String × Bool) : Ordering :=
  if a.2.2 ≠ b.2.2 then compare a.2.2 b.2.2 else compare a.1 b.1

/-- `sort_by` keeps `a` before `b` when the comparator is not `gt`. -/
def threshold_le (a b : String × String × Bool) : Bool :=
  decide (threshold_cmp a b ≠ Ordering.gt)

/-- The flat `(metric_name, threshold_expr, ok)` list built by
`generate_thresholds_section` from all metrics' thresholds. -/
def thresholdEntries (metrics : List (String × Metric)) :
    List (String × String × Bool) :=
  metrics.flatMap (fun nm =>
    nm.2.thresholds.map (fun te => (nm.1, te.1, te.2.ok)))

/-- The `thresholds.sort_by(...)` call of
`generate_thresholds_section`. -/
def sortThresholds (entries : List (String × String × Bool)) :
    List (String × String × Bool) :=
  entries.mergeSort threshold_le

/-- `fn generate_thresholds_section` from src/main.rs, as the list of
lines it emits (empty when no threshold exists): a fixed header and
then one table row per sorted entry. -/
def generate_thresholds_section (metrics : List (String × Metric)) :
    List String :=
  let thresholds := thresholdEntries metrics
  if thresholds.isEmpty then []
  else
    ["## Thresholds", "", "| Metric | Threshold | Status |",
     "|--------|-----------|--------|"] ++
    (sortThresholds thresholds).map (fun e =>
      "| " ++ e.1 ++ " | `" ++ e.2.1 ++ "` | " ++
        (if e.2.2 then "✓ PASS" else "✗ **FAIL**") ++ " |")

/-- In a `≤`-sorted list the head is a lower bound. -/
theorem sorted_headD_le {l : List ℚ} (hs : l.Sorted (· ≤ ·)) :
    ∀ x ∈ l, l.headD 0 ≤ x := by
  cases l with
  | nil => intro x hx; cases hx
  | cons a t =>
    rcases List.sorted_cons.mp hs with ⟨ha, _⟩
    intro x hx
    rcases List.mem_cons.mp hx with h | h
    · simp [h]
    · simpa using ha x h

/-- In a `≤`-sorted list the last element is an upper bound. -/
theorem sorted_le_getLastD {l : List ℚ} (hs : l.Sorted (· ≤ ·)) :
    ∀ x ∈ l, x ≤ l.getLastD 0 := by
  induction l with
  | nil => intro x hx; cases hx
  | cons a t ih =>
    rcases List.sorted_cons.mp hs with ⟨ha, ht⟩
    intro x hx
    cases t with
    | nil =>
      rcases List.mem_cons.mp hx with h | h
      · simp [h]
      · cases h
    | cons b t' =>
      have hlast : (a :: b :: t').getLastD 0 = (b :: t').getLastD 0 := by
        simp [List.getLastD_eq_getLast?, List.getLast?_cons_cons]
      rw [hlast]
      rcases List.mem_cons.mp hx with h | h
      · subst h
        exact le_trans (ha b (List.mem_cons_self b t'))
          (ih ht b (List.mem_cons_self b t'))
      · exact ih ht x h

/-- The head default is a member of any non-empty list. -/
theorem headD_mem {l : List ℚ} (h : l ≠ []) : l.headD 0 ∈ l := by
  rw [List.headD_eq_head?, List.head?_eq_head h]
  exact List.head_mem h

/-- The last default is a member of any non-empty list. -/
theorem getLastD_mem {l : List ℚ} (h : l ≠ []) : l.getLastD 0 ∈ l := by
  rw [List.getLastD_eq_getLast?, List.getLast?_eq_getLast l h]
  exact List.getLast_mem h

/-- Indexing at 0 with any default agrees with `headD`. -/
theorem getD_zero_headD {α : Type} (l : List α) (d : α) :
    l.getD 0 d = l.headD d := by
  cases l <;> rfl

/-- Indexing at `length - 1` with any default agrees with `getLastD`. -/
theorem getD_pred_length_getLastD {α : Type} {l : List α} (h : l ≠ [])
    (d : α) : l.getD (l.length - 1) d = l.getLastD d := by
  rw [List.getLastD_eq_getLast?, List.getLast?_eq_getLast l h,
    List.getLast_eq_getElem l h]
  have hlt : l.length - 1 < l.length :=
    Nat.sub_lt (List.length_pos.mpr h) Nat.one_pos
  simp [List.getD_eq_getElem?_getD, List.getElem?_eq_getElem hlt]

/-- Indexing at 0 with default 0 agrees with `headD` on `ℚ`. -/
theorem getD_zero_eq_headD (l : List ℚ) : l.getD 0 0 = l.headD 0 :=
  getD_zero_headD l 0

/-- Indexing at `length - 1` with default 0 agrees with `getLastD`. -/
theorem getD_pred_length_eq_getLastD {l : List ℚ} (h : l ≠ []) :
    l.getD (l.length - 1) 0 = l.getLastD 0 :=
  getD_pred_length_getLastD h 0

/-- C1: on a non-empty ascending-sorted sequence, `percentile seq 0` is
the head of the sequence, which is its minimum, and `percentile seq 100`
is its last element, which is its maximum; `percentile [] p = 0` for
every `p`, and `percentile [x] p = x` for every `p`. -/
theorem percentile_endpoints_spec (l : List ℚ) (hne : l ≠ [])
    (hs : l.Sorted (· ≤ ·)) :
    (percentile l 0 = l.headD 0 ∧ l.headD 0 ∈ l ∧ ∀ x ∈ l, l.headD 0 ≤ x) ∧
    (percentile l 100 = l.getLastD 0 ∧ l.getLastD 0 ∈ l ∧
      ∀ x ∈ l, x ≤ l.getLastD 0) ∧
    (∀ p : ℚ, percentile [] p = 0) ∧
    (∀ (x p : ℚ), percentile [x] p = x) := by
  have hlen : 0 < l.length := List.length_pos.mpr hne
  have hempty : l.isEmpty = false := by
    simpa [List.isEmpty_iff] using hne
  refine ⟨⟨?_, headD_mem hne, sorted_headD_le hs⟩,
    ⟨?_, getLastD_mem hne, sorted_le_getLastD hs⟩, ?_, ?_⟩
  · by_cases h1 : l.length = 1
    · simp [percentile, hempty, h1]
    · have hnle : ¬ l.length ≤ (0 : ℕ) := by omega
      have hidx : ((0 : ℚ) / 100) * ((l.length - 1 : ℕ) : ℚ) = 0 := by
        ring
      simp only [percentile, hempty, Bool.false_eq_true, if_false, h1,
        hidx, Int.floor_zero, Int.ceil_zero, Int.toNat_zero,
        Nat.cast_zero, sub_zero, zero_mul, add_zero]
      rw [if_neg hnle]
      exact getD_zero_eq_headD l
  · by_cases h1 : l.length = 1
    · have hhl : l.headD 0 = l.getLastD 0 := by
        cases l with
        | nil => rfl
        | cons a t =>
          cases t with
          | nil => rfl
          | cons b t' => simp at h1
      have h2 : l.head?.getD 0 = l.getLast?.getD 0 := by
        rw [← List.headD_eq_head?, ← List.getLastD_eq_getLast?]
        exact hhl
      simp [percentile, hempty, h1, h2]
    · have hidx : ((100 : ℚ) / 100) * ((l.length - 1 : ℕ) : ℚ)
        = ((l.length - 1 : ℕ) : ℚ) := by ring
      have hfl : (⌊((l.length - 1 : ℕ) : ℚ)⌋).toNat = l.length - 1 := by
        rw [Int.floor_natCast]; exact Int.toNat_natCast _
      have hcl : (⌈((l.length - 1 : ℕ) : ℚ)⌉).toNat = l.length - 1 := by
        rw [Int.ceil_natCast]; exact Int.toNat_natCast _
      have hnle : ¬ l.length ≤ l.length - 1 := by
        omega
      simp only [percentile, hempty, Bool.false_eq_true, if_false, h1,
        hidx, hfl, hcl, hnle]
      rw [getD_pred_length_eq_getLastD hne]
      ring
  · intro p; rfl
  · intro x p; simp [percentile]

/-- Witness for C1 at the concrete sorted list `[1, 2, 4]`. -/
theorem percentile_endpoints_spec_witness :
    percentile [(1 : ℚ), 2, 4] 0 = ([(1 : ℚ), 2, 4]).headD 0 ∧
    percentile [(1 : ℚ), 2, 4] 100 = ([(1 : ℚ), 2, 4]).getLastD 0 := by
  have h := percentile_endpoints_spec [(1 : ℚ), 2, 4] (by decide)
    (by simp [List.sorted_cons]; norm_num)
  exact ⟨h.1.1, h.2.1.1⟩

/-- `sortSamples` permutes its input. -/
theorem sortSamples_perm (l : List ℚ) : (sortSamples l).Perm l :=
  List.mergeSort_perm l _

/-- `sortSamples` sorts ascending. -/
theorem sortSamples_sorted (l : List ℚ) :
    (sortSamples l).Sorted (· ≤ ·) := by
  have h := @List.sorted_mergeSort ℚ
    (fun a b : ℚ => decide (a ≤ b))
    (by intro a b c h1 h2
        simp only [decide_eq_true_eq] at h1 h2 ⊢
        exact le_trans h1 h2)
    (by intro a b
        simp only [Bool.or_eq_true, decide_eq_true_eq]
        exact le_total a b)
    l
  exact h.imp (fun hab => of_decide_eq_true hab)

/-- C2: on a non-empty sample list, Counter stats are exactly the keys
`count` and `rate`, with `count` the number of samples and `rate` equal
to `count / max(sum/1000, 1)`; in particular five samples of value `1.0`
give `count = 5` and `rate = 5`. -/
theorem calculate_stats_counter_spec (l : List ℚ) (hne : l ≠ []) :
    calculate_stats l .counter =
      [("count", (l.length : ℚ)),
       ("rate", (l.length : ℚ) / max (l.sum / 1000) 1)] ∧
    (calculate_stats l .counter).map Prod.fst = ["count", "rate"] ∧
    (calculate_stats l .counter).lookup "count" = some (l.length : ℚ) ∧
    (calculate_stats l .counter).lookup "rate" =
      some ((l.length : ℚ) / max (l.sum / 1000) 1) ∧
    (calculate_stats [(1 : ℚ), 1, 1, 1, 1] .counter).lookup "count" =
      some 5 ∧
    (calculate_stats [(1 : ℚ), 1, 1, 1, 1] .counter).lookup "rate" =
      some 5 := by
  have hempty : l.isEmpty = false := by
    simpa [List.isEmpty_iff] using hne
  have heq : calculate_stats l .counter =
      [("count", (l.length : ℚ)),
       ("rate", (l.length : ℚ) / max (l.sum / 1000) 1)] := by
    simp [calculate_stats, hempty]
  have h5 : calculate_stats [(1 : ℚ), 1, 1, 1, 1] .counter =
      [("count", 5), ("rate", 5)] := by
    simp [calculate_stats]
    norm_num
  refine ⟨heq, by rw [heq]; rfl, by rw [heq]; rfl, by rw [heq]; rfl,
    by rw [h5]; rfl, by rw [h5]; rfl⟩

/-- Witness for C2 at five samples of value `1.0`. -/
theorem calculate_stats_counter_spec_witness :
    (calculate_stats [(1 : ℚ), 1, 1, 1, 1] .counter).lookup "count" =
      some 5 ∧
    (calculate_stats [(1 : ℚ), 1, 1, 1, 1] .counter).lookup "rate" =
      some 5 := by
  have h := calculate_stats_counter_spec [(1 : ℚ), 1, 1, 1, 1] (by decide)
  exact ⟨h.2.2.2.2.1, h.2.2.2.2.2⟩

/-- C3: on a non-empty sample list, Gauge stats set `value` to the last
element of the ascending-sorted samples (which is the maximum of the
samples, not the chronologically last one), `min` to the sorted head and
`max` to the sorted last element. -/
theorem calculate_stats_gauge_spec (l : List ℚ) (hne : l ≠ []) :
    calculate_stats l .gauge =
      [("value", (sortSamples l).getLastD 0),
       ("min", (sortSamples l).headD 0),
       ("max", (sortSamples l).getLastD 0)] ∧
    (sortSamples l).headD 0 ∈ l ∧
    (sortSamples l).getLastD 0 ∈ l ∧
    ∀ x ∈ l, (sortSamples l).headD 0 ≤ x ∧ x ≤ (sortSamples l).getLastD 0
    := by
  have hempty : l.isEmpty = false := by
    simpa [List.isEmpty_iff] using hne
  have hperm := sortSamples_perm l
  have hsne : sortSamples l ≠ [] := by
    intro h
    rw [h] at hperm
    exact hne hperm.symm.eq_nil
  refine ⟨by simp [calculate_stats, hempty], ?_, ?_, ?_⟩
  · exact hperm.mem_iff.mp (headD_mem hsne)
  · exact hperm.mem_iff.mp (getLastD_mem hsne)
  · intro x hx
    have hxs : x ∈ sortSamples l := hperm.mem_iff.mpr hx
    exact ⟨sorted_headD_le (sortSamples_sorted l) x hxs,
      sorted_le_getLastD (sortSamples_sorted l) x hxs⟩

/-- Witness for C3 at the concrete samples `[2, 1]`. -/
theorem calculate_stats_gauge_spec_witness :
    calculate_stats [(2 : ℚ), 1] .gauge =
      [("value", (sortSamples [(2 : ℚ), 1]).getLastD 0),
       ("min", (sortSamples [(2 : ℚ), 1]).headD 0),
       ("max", (sortSamples [(2 : ℚ), 1]).getLastD 0)] :=
  (calculate_stats_gauge_spec [(2 : ℚ), 1] (by decide)).1

/-- C9: `percentile`'s slice accesses stay in bounds for every slice
and every `f64` percentile `p` — NaN included (`p = none`): the
saturating casts pin `lower ≤ upper`, `upper` is checked against the
length, and the fallback access index `length - 1` is in bounds; a
negative `p` yields the first element and `p > 100` yields the last. -/
theorem percentileF_safety (l : List F64) (p : F64) (hne : l ≠ []) :
    percLower l p ≤ percUpper l p ∧
    (percUpper l p < l.length → percLower l p < l.length) ∧
    l.length - 1 < l.length ∧
    (∀ q : ℚ, p = some q → q < 0 → percentileF l p = l.headD none) ∧
    (∀ q : ℚ, p = some q → 100 < q → percentileF l p = l.getLastD none)
    := by
  have hlen : 0 < l.length := List.length_pos.mpr hne
  have hempty : l.isEmpty = false := by
    simpa [List.isEmpty_iff] using hne
  have hle : percLower l p ≤ percUpper l p := by
    unfold percLower percUpper
    cases percIndex l p with
    | none => exact le_refl 0
    | some q => exact Int.toNat_le_toNat (Int.floor_le_ceil q)
  refine ⟨hle, fun hu => lt_of_le_of_lt hle hu,
    Nat.sub_lt hlen Nat.one_pos, ?_, ?_⟩
  · intro q hpq hq
    subst hpq
    by_cases h1 : l.length = 1
    · obtain ⟨a, rfl⟩ := List.length_eq_one.mp h1
      rfl
    · have h2 : 2 ≤ l.length := by omega
      have hcast : (1 : ℚ) ≤ ((l.length - 1 : ℕ) : ℚ) := by
        have h11 : 1 ≤ l.length - 1 := by omega
        exact_mod_cast h11
      have hvneg : q / 100 * ((l.length - 1 : ℕ) : ℚ) < 0 :=
        mul_neg_of_neg_of_pos (div_neg_of_neg_of_pos hq (by norm_num))
          (lt_of_lt_of_le zero_lt_one hcast)
      have hidx : percIndex l (some q) =
          some (q / 100 * ((l.length - 1 : ℕ) : ℚ)) := rfl
      have hlow : percLower l (some q) = 0 := by
        unfold percLower floorToUsize
        rw [hidx]
        exact Int.toNat_eq_zero.mpr (Int.floor_nonpos hvneg.le)
      have hup : percUpper l (some q) = 0 := by
        unfold percUpper ceilToUsize
        rw [hidx]
        exact Int.toNat_eq_zero.mpr (Int.ceil_le.mpr (by exact_mod_cast hvneg.le))
      have hnle : ¬ l.length ≤ percUpper l (some q) := by
        rw [hup]; omega
      simp only [percentileF, hempty, Bool.false_eq_true, if_false, h1]
      rw [if_neg hnle, hlow, hup]
      simp only [getD_zero_headD]
      cases hh : l.headD none with
      | none => simp [hidx, hh, fadd, fsub, fmul]
      | some a => simp [hidx, hh, fadd, fsub, fmul]
  · intro q hpq hq
    subst hpq
    by_cases h1 : l.length = 1
    · obtain ⟨a, rfl⟩ := List.length_eq_one.mp h1
      rfl
    · have h2 : 2 ≤ l.length := by omega
      have hcast : (1 : ℚ) ≤ ((l.length - 1 : ℕ) : ℚ) := by
        have h11 : 1 ≤ l.length - 1 := by omega
        exact_mod_cast h11
      have hq100 : (1 : ℚ) < q / 100 := by
        rw [lt_div_iff₀ (by norm_num : (0 : ℚ) < 100)]
        linarith
      have hvgt : ((l.length - 1 : ℕ) : ℚ) <
          q / 100 * ((l.length - 1 : ℕ) : ℚ) := by
        nlinarith
      have hceil : (l.length : ℤ) ≤ ⌈q / 100 * ((l.length - 1 : ℕ) : ℚ)⌉ := by
        have hlt : ((l.length - 1 : ℕ) : ℤ) <
            ⌈q / 100 * ((l.length - 1 : ℕ) : ℚ)⌉ := by
          rw [Int.lt_ceil]
          exact_mod_cast hvgt
        have : ((l.length - 1 : ℕ) : ℤ) = (l.length : ℤ) - 1 := by
          omega
        omega
      have hidx : percIndex l (some q) =
          some (q / 100 * ((l.length - 1 : ℕ) : ℚ)) := rfl
      have hup : l.length ≤ percUpper l (some q) := by
        unfold percUpper ceilToUsize
        rw [hidx]
        have h0 : (0 : ℤ) ≤ ⌈q / 100 * ((l.length - 1 : ℕ) : ℚ)⌉ :=
          le_trans (by exact_mod_cast Nat.zero_le l.length) hceil
        exact (Int.le_toNat h0).mpr hceil
      simp only [percentileF, hempty, Bool.false_eq_true, if_false, h1]
      rw [if_pos hup, getD_pred_length_getLastD hne]

/-- Witness for C9: two-element slice, `p = -7` gives the head and
`p = 250` gives the last element. -/
theorem percentileF_safety_witness :
    percentileF [some (3 : ℚ), some 9] (some (-7)) =
      ([some (3 : ℚ), some 9]).headD none ∧
    percentileF [some (3 : ℚ), some 9] (some 250) =
      ([some (3 : ℚ), some 9]).getLastD none := by
  have h := percentileF_safety [some (3 : ℚ), some 9] (some (-7))
    (by decide)
  have h' := percentileF_safety [some (3 : ℚ), some 9] (some 250)
    (by decide)
  exact ⟨h.2.2.2.1 (-7) rfl (by norm_num),
    h'.2.2.2.2 250 rfl (by norm_num)⟩

/-- `or_insert` on a key already present leaves the map unchanged. -/
theorem insertIfAbsent_of_lookup_some {cs : List (String × MetricCollector)}
    {k : String} {c : MetricCollector} (c' : MetricCollector)
    (h : List.lookup k cs = some c) : insertIfAbsent cs k c' = cs := by
  induction cs with
  | nil => simp [List.lookup] at h
  | cons kc rest ih =>
    obtain ⟨k0, c0⟩ := kc
    by_cases hk : k = k0
    · subst hk
      simp [insertIfAbsent]
    · have hbeq : (k == k0) = false := beq_eq_false_iff_ne.mpr hk
      have hbeq' : (k0 == k) = false := beq_eq_false_iff_ne.mpr (Ne.symm hk)
      have h' : List.lookup k rest = some c := by
        simpa [List.lookup, hbeq] using h
      simp [insertIfAbsent, hbeq', ih h']

/-- Pushing a value for an absent key auto-registers the default Trend
collector holding just that value. -/
theorem lookup_pushValue_self {cs : List (String × MetricCollector)}
    {k : String} (v : ℚ) (h : List.lookup k cs = none) :
    List.lookup k (pushValue cs k v) =
      some { metric_type := MetricType.trend, contains := "",
             values := [v], thresholds := [] } := by
  induction cs with
  | nil => simp [pushValue, List.lookup]
  | cons kc rest ih =>
    obtain ⟨k0, c0⟩ := kc
    by_cases hk : k = k0
    · subst hk
      simp [List.lookup] at h
    · have hbeq : (k == k0) = false := beq_eq_false_iff_ne.mpr hk
      have hbeq' : (k0 == k) = false := beq_eq_false_iff_ne.mpr (Ne.symm hk)
      have h' : List.lookup k rest = none := by
        simpa [List.lookup, hbeq] using h
      simp [pushValue, hbeq', List.lookup, hbeq, ih h']

/-- Time tracking never touches the collectors. -/
theorem trackTime_collectors (s : ParseState) (t : Option String) :
    (trackTime s t).collectors = s.collectors := by
  cases t <;> rfl

/-- C5: a Point record carrying a numeric value and a `time` that is
skipped as a sub-metric breakdown still contributes its timestamp: the
step leaves the collectors unchanged but sets `last_time` to the
point's time, and `first_time` too when it was still unset. -/
theorem point_time_tracked_before_skip (s : ParseState) (e : JsonlLine)
    (v : ℚ) (t : String) (hline : e.line_type = "Point")
    (hv : e.data.value = some v) (ht : e.data.time = some t)
    (hskip : isSubMetricPoint e.data.tags = true) :
    (step s e).collectors = s.collectors ∧
    (step s e).last_time = some t ∧
    (step s e).first_time =
      (if s.first_time.isNone then some t else s.first_time) := by
  simp [step, hline, hv, ht, hskip, trackTime]

/-- Witness for C5: a skipped sub-metric point (tag `expected_response`)
still sets the time range. -/
theorem point_time_tracked_before_skip_witness :
    (step initState
      { line_type := "Point", metric := "http_req_duration",
        data := { metric_type := none, contains := none, thresholds := [],
                  time := some "t1", value := some 5,
                  tags := some [("expected_response", Json.bool true)] }
      }).collectors = initState.collectors ∧
    (step initState
      { line_type := "Point", metric := "http_req_duration",
        data := { metric_type := none, contains := none, thresholds := [],
                  time := some "t1", value := some 5,
                  tags := some [("expected_response", Json.bool true)] }
      }).last_time = some "t1" ∧
    (step initState
      { line_type := "Point", metric := "http_req_duration",
        data := { metric_type := none, contains := none, thresholds := [],
                  time := some "t1", value := some 5,
                  tags := some [("expected_response", Json.bool true)] }
      }).first_time =
      (if initState.first_time.isNone then some "t1"
       else initState.first_time) :=
  point_time_tracked_before_skip initState _ 5 "t1" rfl rfl rfl rfl

/-- C10: first registration wins in the event-log parser.  A `Metric`
record whose name is already registered (for instance auto-registered
by an earlier Point) changes nothing at all, and a Point for an
unregistered name auto-registers the default collector — kind Trend,
empty `contains`, no thresholds — holding just that value. -/
theorem jsonl_first_seen_wins_spec :
    (∀ (s : ParseState) (e : JsonlLine) (c : MetricCollector),
      e.line_type = "Metric" →
      List.lookup e.metric s.collectors = some c →
      step s e = s) ∧
    (∀ (s : ParseState) (e : JsonlLine) (v : ℚ),
      e.line_type = "Point" → e.data.value = some v →
      isSubMetricPoint e.data.tags = false →
      List.lookup e.metric s.collectors = none →
      List.lookup e.metric (step s e).collectors =
        some { metric_type := MetricType.trend, contains := "",
               values := [v], thresholds := [] }) := by
  constructor
  · intro s e c hline hlook
    have hstep : step s e =
        { s with
          collectors := insertIfAbsent s.collectors e.metric
            { metric_type := parseMetricType e.data.metric_type
              contains := e.data.contains.getD ""
              values := []
              thresholds := e.data.thresholds } } := by
      simp [step, hline]
    rw [hstep, insertIfAbsent_of_lookup_some _ hlook]
  · intro s e v hline hv hskip hlook
    have hstep : step s e =
        { trackTime s e.data.time with
          collectors :=
            pushValue (trackTime s e.data.time).collectors e.metric v } := by
      simp [step, hline, hv, hskip]
    rw [hstep]
    show List.lookup e.metric
      (pushValue (trackTime s e.data.time).collectors e.metric v) = _
    rw [trackTime_collectors]
    exact lookup_pushValue_self v hlook

/-- C7: the event-log parser is total and skips bad lines: a line that
is blank after trimming, or that the JSONL line parser rejects, can be
inserted anywhere without changing the parse, and `parse_jsonl` always
produces a summary from the fold over the lines. -/
theorem parse_jsonl_skips_bad_lines_spec (pl : String → Option JsonlLine)
    (pn : String → Option ℚ) :
    (∀ (ls1 ls2 : List String) (bad : String),
      bad.trim = "" ∨ pl bad.trim = none →
      foldLines pl (ls1 ++ bad :: ls2) = foldLines pl (ls1 ++ ls2)) ∧
    (∀ content : String,
      parse_jsonl pl pn content =
        buildSummary pn (foldLines pl (content.splitOn "\n"))) := by
  constructor
  · intro ls1 ls2 bad hbad
    have hskip : ∀ s : ParseState, processLine pl s bad = s := by
      intro s
      have hemp : ("" : String).isEmpty = true := rfl
      rcases hbad with h | h
      · simp [processLine, h, hemp]
      · by_cases he : bad.trim.isEmpty
        · simp [processLine, he]
        · simp [processLine, he, h]
    unfold foldLines
    rw [List.foldl_append, List.foldl_append, List.foldl_cons, hskip]
  · intro content
    rfl

/-- Witness for C7: a line every parser rejects changes nothing. -/
theorem parse_jsonl_skips_bad_lines_spec_witness :
    foldLines (fun _ => none) ["a", "bad"] =
      foldLines (fun _ => none) ["a"] :=
  (parse_jsonl_skips_bad_lines_spec (fun _ => none) (fun _ => none)).1
    ["a"] [] "bad" (Or.inr rfl)

/-- C6: the duration calculation takes the time-of-day substring (after
`T`, before the first `+`, before any `-`), requires exactly two
`T`-parts and exactly three `:`-components, converts each parsed triple
to `(h*3600 + m*60 + s)*1000` milliseconds, and yields the absolute
difference; an absent or malformed timestamp yields no duration, and
then the parsed summary carries no `State`. -/
theorem calculate_duration_spec (pn : String → Option ℚ) :
    (∀ last, calculate_duration pn none last = none) ∧
    (∀ first, calculate_duration pn first none = none) ∧
    (∀ f l fm lm, parse_time pn f = some fm → parse_time pn l = some lm →
      calculate_duration pn (some f) (some l) = some |lm - fm|) ∧
    (∀ f l, parse_time pn f = none →
      calculate_duration pn (some f) (some l) = none) ∧
    (∀ f l, parse_time pn l = none →
      calculate_duration pn (some f) (some l) = none) ∧
    (∀ s, (s.splitOn "T").length ≠ 2 → parse_time pn s = none) ∧
    (∀ s, (time_components s).length ≠ 3 → parse_time pn s = none) ∧
    (∀ (s : String) (hrs mins secs : ℚ),
      (s.splitOn "T").length = 2 → (time_components s).length = 3 →
      pn ((time_components s).getD 0 "") = some hrs →
      pn ((time_components s).getD 1 "") = some mins →
      pn ((time_components s).getD 2 "") = some secs →
      parse_time pn s = some ((hrs * 3600 + mins * 60 + secs) * 1000)) ∧
    (∀ (pl : String → Option JsonlLine) (content : String),
      calculate_duration pn
        (foldLines pl (content.splitOn "\n")).first_time
        (foldLines pl (content.splitOn "\n")).last_time = none →
      (parse_jsonl pl pn content).state = none) := by
  refine ⟨?_, ?_, ?_, ?_, ?_, ?_, ?_, ?_, ?_⟩
  · intro last; cases last <;> rfl
  · intro first; cases first <;> rfl
  · intro f l fm lm hf hl
    simp [calculate_duration, hf, hl]
  · intro f l hf
    simp [calculate_duration, hf]
  · intro f l hl
    cases hf : parse_time pn f <;> simp [calculate_duration, hf, hl]
  · intro s h
    unfold parse_time
    rw [if_pos h]
  · intro s h
    by_cases h2 : (s.splitOn "T").length = 2
    · unfold parse_time parse_hms
      rw [if_neg (by simp [h2]), if_pos h]
    · unfold parse_time
      rw [if_pos (by simp [h2])]
  · intro s hrs mins secs h2 h3 hh hm hsec
    unfold parse_time parse_hms
    rw [if_neg (by simp [h2]), if_neg (by simp [h3]), hh, hm, hsec]
  · intro pl content h
    simp [parse_jsonl, buildSummary, h]

/-- C4: the format detector trims the input and classifies it as
`HandleSummary` exactly when the trimmed text starts with a left brace
and parses as one JSON value holding a top-level `metrics` key; in
every other case — a malformed leading brace included — it returns
`Jsonl`, and it is a total function. -/
theorem detect_format_spec (pj : String → Option Json) (content : String) :
    detect_format pj content = FileFormat.HandleSummary ↔
      (content.trim.startsWith "\x7b" = true ∧
        ∃ v, pj content.trim = some v ∧
          (v.getKey "metrics").isSome = true) := by
  by_cases hs : content.trim.startsWith "\x7b"
  · cases hv : pj content.trim with
    | none => simp [detect_format, hs, hv]
    | some v =>
      by_cases hk : (v.getKey "metrics").isSome
      · simp [detect_format, hs, hv, hk]
      · simp [detect_format, hs, hv, hk]
  · simp [detect_format, hs]

/-- C8: in the sorted threshold table every pair of rows in order is
either a failing row before a passing row, or two rows of the same
status with metric names in ascending order — so all `ok = false` rows
come first and ties are alphabetical. -/
theorem thresholds_sorted_spec (metrics : List (String × Metric)) :
    List.Pairwise (fun a b : String × String × Bool =>
      (a.2.2 = false ∧ b.2.2 = true) ∨ (a.2.2 = b.2.2 ∧ a.1 ≤ b.1))
      (sortThresholds (thresholdEntries metrics)) := by
  have cff : compare false false = Ordering.eq := by decide
  have cft : compare false true = Ordering.lt := by decide
  have ctf : compare true false = Ordering.gt := by decide
  have ctt : compare true true = Ordering.eq := by decide
  have htrans : ∀ a b c : String × String × Bool,
      threshold_le a b = true → threshold_le b c = true →
      threshold_le a c = true := by
    intro a b c hab hbc
    rcases a with ⟨an, ae, ao⟩
    rcases b with ⟨bn, be, bo⟩
    rcases c with ⟨cn, ce, co⟩
    simp only [threshold_le, threshold_cmp, decide_eq_true_eq] at hab hbc ⊢
    cases ao <;> cases bo <;> cases co <;>
      simp_all [cff, cft, ctf, ctt, compare_le_iff_le] <;>
      exact le_trans hab hbc
  have htotal : ∀ a b : String × String × Bool,
      (threshold_le a b || threshold_le b a) = true := by
    intro a b
    rcases a with ⟨an, ae, ao⟩
    rcases b with ⟨bn, be, bo⟩
    simp only [threshold_le, threshold_cmp, Bool.or_eq_true,
      decide_eq_true_eq]
    cases ao <;> cases bo <;>
      simp_all [cff, cft, ctf, ctt, compare_le_iff_le] <;>
      exact le_total _ _
  have hsorted := @List.sorted_mergeSort (String × String × Bool)
    threshold_le htrans htotal (thresholdEntries metrics)
  have himp : ∀ a b : String × String × Bool,
      threshold_le a b = true →
      (a.2.2 = false ∧ b.2.2 = true) ∨ (a.2.2 = b.2.2 ∧ a.1 ≤ b.1) := by
    intro a b hab
    rcases a with ⟨an, ae, ao⟩
    rcases b with ⟨bn, be, bo⟩
    simp only [threshold_le, threshold_cmp, decide_eq_true_eq] at hab
    cases ao <;> cases bo
    · exact Or.inr ⟨rfl, by simpa [compare_le_iff_le] using hab⟩
    · exact Or.inl ⟨rfl, rfl⟩
    · simp [ctf] at hab
    · exact Or.inr ⟨rfl, by simpa [compare_le_iff_le] using hab⟩
  exact hsorted.imp (fun h => himp _ _ h)
